import Mathlib

/-!
Verification development for a discrete Bayesian inference notebook
(the "Euro problem": grid approximation of the posterior over a coin's
probability of heads).

The numerical core of the notebook is embedded over `ℚ` (exact rational
arithmetic in place of IEEE floats):

* the grid `xs = np.linspace(0, 1, num=101)` — value `i/100` at index `i`;
* the uniform prior `prior = pd.Series(1/101, index=xs)`;
* the likelihoods `likelihood_heads = xs`, `likelihood_tails = 1 - xs`;
* the update pattern `posterior = prior * lh**h * lt**t; posterior /= posterior.sum()`,
  generalized to a list of (label, count) outcome pairs applied pointwise;
* the triangle prior `ps = np.append(np.arange(50), np.arange(50, -1, -1))`;
* `Series.idxmax` (first index attaining the maximum value);
* `credible_interval` built on `scipy.interpolate.interp1d` over the
  cumulative sums, with `bounds_error=False`,
  `fill_value=(xs[0], xs[-1])`, `assume_sorted=True`.

Note on division: the notebook divides floats, where `0/0 = NaN`; in the
rational model `q / 0 = 0`, so the degenerate (zero total mass) case
yields an all-zero mass list instead of an all-NaN one.  Where this
matters it is called out at the relevant theorem.
-/

namespace EuroNotebook

/-- Outcome label of a coin spin: heads or tails. -/
inductive Outcome : Type
  | heads : Outcome
  | tails : Outcome
deriving DecidableEq, Repr

/-- The notebook's likelihood model: `likelihood_heads = xs` and
`likelihood_tails = 1 - xs`, i.e. P(heads | x) = x, P(tails | x) = 1 - x. -/
def likelihood : Outcome → ℚ → ℚ
  | Outcome.heads, x => x
  | Outcome.tails, x => 1 - x

/-- A pandas `Series` holding a PMF: `xs` is the index (the grid of
candidate parameter values), `ms` the values (the masses), aligned by
position. -/
structure PmfQ : Type where
  xs : List ℚ
  ms : List ℚ
deriving DecidableEq, Repr

/-- One elementwise multiplication step `series * likelihood_label ** count`,
as in `prior * likelihood_heads**140`. -/
def applyOutcome (xs : List ℚ) (ms : List ℚ) (o : Outcome × ℕ) : List ℚ :=
  List.zipWith (fun m x => m * likelihood o.1 x ^ o.2) ms xs

/-- The unnormalized posterior: the prior multiplied pointwise by each
likelihood power in turn (`prior * likelihood_heads**h * likelihood_tails**t`). -/
def unnormalized (p : PmfQ) (outs : List (Outcome × ℕ)) : PmfQ :=
  ⟨p.xs, outs.foldl (applyOutcome p.xs) p.ms⟩

/-- `posterior /= posterior.sum()`: divide every mass by the total. -/
def normalize (p : PmfQ) : PmfQ :=
  ⟨p.xs, p.ms.map (fun m => m / p.ms.sum)⟩

/-- The notebook's Bayesian update: multiply the prior pointwise by the
likelihood powers, then normalize. -/
def update (p : PmfQ) (outs : List (Outcome × ℕ)) : PmfQ :=
  normalize (unnormalized p outs)

/-- The product over all outcomes of `likelihood(label, x) ** count`,
used to state what `update` computes at a single grid point. -/
def likeProduct (outs : List (Outcome × ℕ)) (x : ℚ) : ℚ :=
  (outs.map (fun o => likelihood o.1 x ^ o.2)).prod

/-- Total mass of the series (`.sum()`). -/
def total (p : PmfQ) : ℚ := p.ms.sum

/-- The notebook's grid `xs = np.linspace(0, 1, num=101)`. -/
def xsGrid : List ℚ := (List.range 101).map (fun i : ℕ => (i : ℚ) / 100)

/-- The uniform prior `prior = pd.Series(1/101, index=xs)`. -/
def prior : PmfQ := ⟨xsGrid, List.replicate 101 (1 / 101)⟩

/-- `ramp_up = np.arange(50)`: the integers 0, 1, ..., 49. -/
def ramp_up : List ℚ := (List.range 50).map (fun i : ℕ => (i : ℚ))

/-- `ramp_down = np.arange(50, -1, -1)`: the integers 50, 49, ..., 0. -/
def ramp_down : List ℚ := (List.range 51).map (fun i : ℕ => ((50 - i : ℕ) : ℚ))

/-- `ps = np.append(ramp_up, ramp_down)`. -/
def ps : List ℚ := ramp_up ++ ramp_down

/-- `triangle = pd.Series(ps, xs); triangle /= triangle.sum()`. -/
def triangle : PmfQ := normalize ⟨xsGrid, ps⟩

/-- Cumulative sums with running accumulator (`Series.cumsum`). -/
def cumsumFrom (acc : ℚ) : List ℚ → List ℚ
  | [] => []
  | m :: rest => (acc + m) :: cumsumFrom (acc + m) rest

/-- `ys = pmf.cumsum()`: entry `i` is the sum of masses `0..i`. -/
def cumsum (ms : List ℚ) : List ℚ := cumsumFrom 0 ms

/-- Piecewise-linear interpolation through the data points
`(y0, x0), (y1, x1), ...` at query `q`, for sorted `y`s with `y0 ≤ q`:
walk to the first point whose `y` is `≥ q` and interpolate linearly on
the segment ending there.  This is `interp1d`'s
`searchsorted`-left-then-clip segment selection, specialized to
in-range queries (out-of-range queries are replaced by the fill values
before reaching this function).  On a flat segment (`y1 = y0`, only
reachable with `q = y0 = y1`) the rational convention `q / 0 = 0` makes
the result `x0`, where floats would produce `x0 + 0 * inf = NaN`. -/
def interpSegs (y0 x0 : ℚ) : List (ℚ × ℚ) → ℚ → ℚ
  | [], _ => x0
  | (y1, x1) :: rest, q =>
    if q ≤ y1 then x0 + (q - y0) * (x1 - x0) / (y1 - y0)
    else interpSegs y1 x1 rest q

/-- `interp1d(ys, xs, bounds_error=False, fill_value=(xs[0], xs[-1]),
assume_sorted=True)` evaluated at `q`: queries below `ys[0]` are filled
with `xs[0]`, queries above `ys[-1]` with `xs[-1]`, and in-range queries
are linearly interpolated. -/
def interpInv (ys xs : List ℚ) (q : ℚ) : ℚ :=
  match ys, xs with
  | y0 :: ytl, x0 :: xtl =>
    if q < y0 then x0
    else if (y0 :: ytl).getLastD 0 < q then (x0 :: xtl).getLastD 0
    else interpSegs y0 x0 (ytl.zip xtl) q
  | _, _ => 0

/-- The notebook's `credible_interval(pmf, prob)`: build the CDF by
cumulative summation, set `p = (1-prob)/2`, and evaluate the
interpolated inverse CDF at `p` and `1-p`. -/
def credible_interval (p : PmfQ) (prob : ℚ) : ℚ × ℚ :=
  let ys := cumsum p.ms
  let q := (1 - prob) / 2
  (interpInv ys p.xs q, interpInv ys p.xs (1 - q))

/-- Running best for `Series.idxmax`: keep the current (index, value)
pair, replacing it only on a strictly larger value, so the first
occurrence of the maximum wins. -/
def idxmaxPair (best : ℚ × ℚ) : List (ℚ × ℚ) → ℚ × ℚ
  | [] => best
  | p :: rest => idxmaxPair (if best.2 < p.2 then p else best) rest

/-- `pmf.idxmax()`: the index (grid value) of the first occurrence of
the maximum mass. -/
def map_estimate (p : PmfQ) : ℚ :=
  match p.xs.zip p.ms with
  | [] => 0
  | pr :: rest => (idxmaxPair pr rest).1

/-- The variables of the notebook session that the posterior cells read
and write; assignment is modelled as explicit state passing. -/
structure NotebookEnv : Type where
  prior : PmfQ
  triangle : PmfQ
  posterior1 : PmfQ
  posterior2 : PmfQ
deriving DecidableEq, Repr

/-- The observed data of the Euro problem: 140 heads and 110 tails. -/
def euroData : List (Outcome × ℕ) := [(Outcome.heads, 140), (Outcome.tails, 110)]

/-- The cell `posterior1 = prior * lh**140 * lt**110; posterior1 /= posterior1.sum()`:
writes `posterior1`, reads `prior`. -/
def runPosterior1 (s : NotebookEnv) : NotebookEnv :=
  { s with posterior1 := update s.prior euroData }

/-- The cell `posterior2 = triangle * lh**140 * lt**110; posterior2 /= posterior2.sum()`:
writes `posterior2`, reads `triangle`. -/
def runPosterior2 (s : NotebookEnv) : NotebookEnv :=
  { s with posterior2 := update s.triangle euroData }

/-! ### General list helpers -/

theorem sum_map_div (l : List ℚ) (c : ℚ) :
    (l.map (fun m => m / c)).sum = l.sum / c := by
  induction l with
  | nil => simp
  | cons a l ih => simp [ih, add_div]

theorem sum_eq_zero_of_nonneg (l : List ℚ) (h : ∀ m ∈ l, 0 ≤ m)
    (hs : l.sum = 0) : ∀ m ∈ l, m = 0 := by
  induction l with
  | nil => simp
  | cons a l ih =>
    have ha : 0 ≤ a := h a (by simp)
    have hl : 0 ≤ l.sum := List.sum_nonneg (fun m hm => h m (by simp [hm]))
    have hsum : a + l.sum = 0 := by simpa using hs
    have ha0 : a = 0 := by linarith
    have hl0 : l.sum = 0 := by linarith
    intro m hm
    rcases List.mem_cons.mp hm with h1 | h2
    · exact h1.trans ha0
    · exact ih (fun m hm => h m (by simp [hm])) hl0 m h2

theorem zipWith_zipWith_right (f g : ℚ → ℚ → ℚ) :
    ∀ (ms xs : List ℚ),
      List.zipWith f (List.zipWith g ms xs) xs =
        List.zipWith (fun m x => f (g m x) x) ms xs
  | [], _ => by simp
  | _ :: _, [] => by simp
  | m :: ms, x :: xs => by
    simp only [List.zipWith]
    exact congrArg _ (zipWith_zipWith_right f g ms xs)

theorem zipWith_congr_fun (f g : ℚ → ℚ → ℚ) (h : ∀ m x, f m x = g m x) :
    ∀ (ms xs : List ℚ), List.zipWith f ms xs = List.zipWith g ms xs
  | [], _ => by simp
  | _ :: _, [] => by simp
  | m :: ms, x :: xs => by
    simp only [List.zipWith, h]
    exact congrArg _ (zipWith_congr_fun f g h ms xs)

theorem zipWith_left_id (f : ℚ → ℚ → ℚ) (hf : ∀ m x, f m x = m) :
    ∀ (ms xs : List ℚ), ms.length = xs.length → List.zipWith f ms xs = ms
  | [], _, _ => by simp
  | m :: ms, [], h => by simp at h
  | m :: ms, x :: xs, h => by
    simp only [List.zipWith, hf]
    exact congrArg _ (zipWith_left_id f hf ms xs (by simpa using h))

/-! ### Helpers about `applyOutcome` and the update fold -/

theorem length_applyOutcome (xs ms : List ℚ) (o : Outcome × ℕ)
    (h : ms.length = xs.length) : (applyOutcome xs ms o).length = xs.length := by
  simp [applyOutcome, h]

theorem likeProduct_nil (x : ℚ) : likeProduct [] x = 1 := by simp [likeProduct]

theorem likeProduct_cons (o : Outcome × ℕ) (outs : List (Outcome × ℕ)) (x : ℚ) :
    likeProduct (o :: outs) x = likelihood o.1 x ^ o.2 * likeProduct outs x := by
  simp [likeProduct]

theorem foldl_applyOutcome (xs : List ℚ) :
    ∀ (outs : List (Outcome × ℕ)) (ms : List ℚ), ms.length = xs.length →
      outs.foldl (applyOutcome xs) ms =
        List.zipWith (fun m x => m * likeProduct outs x) ms xs := by
  intro outs
  induction outs with
  | nil =>
    intro ms h
    simp only [List.foldl_nil]
    symm
    exact zipWith_left_id _ (fun m x => by simp [likeProduct_nil]) ms xs h
  | cons o outs ih =>
    intro ms h
    simp only [List.foldl_cons]
    rw [ih (applyOutcome xs ms o) (length_applyOutcome xs ms o h)]
    unfold applyOutcome
    rw [zipWith_zipWith_right]
    apply zipWith_congr_fun
    intro m x
    rw [likeProduct_cons]
    ring

theorem unnormalized_ms (p : PmfQ) (outs : List (Outcome × ℕ))
    (h : p.ms.length = p.xs.length) :
    (unnormalized p outs).ms =
      List.zipWith (fun m x => m * likeProduct outs x) p.ms p.xs :=
  foldl_applyOutcome p.xs outs p.ms h

/-! ### C7: update with zero outcomes -/

/-- C7: for every prior PMF, `update` applied with an empty sequence of
outcomes returns the prior unchanged up to renormalization: the result
is the prior with every mass divided by the prior's total mass. -/
theorem update_nil_renormalizes (p : PmfQ) :
    update p [] = normalize p ∧
    (update p []).ms = p.ms.map (fun m => m / p.ms.sum) :=
  ⟨rfl, rfl⟩

/-! ### C9: the update does not mutate the prior -/

/-- C9: the posterior cells, modelled as explicit state transformers over
the notebook environment, write only their own posterior variable: the
prior (and the triangle prior) masses are left unchanged, re-running the
same update yields an identical posterior, and a later update of another
prior against the same data still sees the original prior value. -/
theorem update_frame_preserves_prior (s : NotebookEnv) :
    (runPosterior1 s).prior = s.prior ∧
    (runPosterior1 s).triangle = s.triangle ∧
    (runPosterior1 (runPosterior1 s)).posterior1 = (runPosterior1 s).posterior1 ∧
    (runPosterior2 (runPosterior1 s)).posterior2 = update s.triangle euroData ∧
    (runPosterior2 (runPosterior1 s)).posterior1 = update s.prior euroData := by
  refine ⟨rfl, rfl, rfl, rfl, rfl⟩

/-! ### C2: the degenerate (zero total mass) case -/

/-- C2 counterexample: on a prior concentrated at `x = 0` updated with one
heads outcome, every grid point yields zero mass, yet `update` does not
fail: it performs the division by the zero total anyway and returns a
value (in the rational model the all-zero mass list, total mass `0`; in
the notebook's floating point, an all-NaN Series).  No
`DegenerateDistributionError` exists anywhere in the code. -/
theorem update_degenerate_counterexample :
    update ⟨[0, 1], [1, 0]⟩ [(Outcome.heads, 1)] = ⟨[0, 1], [0, 0]⟩ ∧
    total (update ⟨[0, 1], [1, 0]⟩ [(Outcome.heads, 1)]) = 0 := by
  constructor <;>
    norm_num [update, EuroNotebook.normalize, unnormalized, applyOutcome,
      likelihood, total]

/-- C2 amended: when every grid point yields zero mass after likelihood
multiplication (total unnormalized mass is zero), `update` does not fail:
it divides by the zero total and returns a degenerate result whose masses
are all zero (the rational-arithmetic counterpart of the all-NaN Series
the floating-point code produces) and whose total mass is `0`, not `1`. -/
theorem update_degenerate_no_failure (p : PmfQ) (outs : List (Outcome × ℕ))
    (h : total (unnormalized p outs) = 0) :
    (update p outs).ms =
      List.replicate (unnormalized p outs).ms.length 0 ∧
    total (update p outs) = 0 := by
  have hms : (update p outs).ms =
      List.replicate (unnormalized p outs).ms.length 0 := by
    show (unnormalized p outs).ms.map
        (fun m => m / (unnormalized p outs).ms.sum) = _
    have h0 : (unnormalized p outs).ms.sum = 0 := h
    rw [h0]
    simp [div_zero, List.map_const']
  refine ⟨hms, ?_⟩
  show (update p outs).ms.sum = 0
  rw [hms]
  simp

/-- C2 witness: a concrete degenerate instance for
`update_degenerate_no_failure`. -/
theorem update_degenerate_no_failure_witness :
    total (unnormalized ⟨[0, 1], [2, 0]⟩ [(Outcome.heads, 3)]) = 0 ∧
    (update ⟨[0, 1], [2, 0]⟩ [(Outcome.heads, 3)]).ms =
      List.replicate
        (unnormalized ⟨[0, 1], [2, 0]⟩ [(Outcome.heads, 3)]).ms.length 0 ∧
    total (update ⟨[0, 1], [2, 0]⟩ [(Outcome.heads, 3)]) = 0 := by
  have h : total (unnormalized ⟨[0, 1], [2, 0]⟩ [(Outcome.heads, 3)]) = 0 := by
    norm_num [unnormalized, applyOutcome, likelihood, total]
  exact ⟨h, update_degenerate_no_failure ⟨[0, 1], [2, 0]⟩ [(Outcome.heads, 3)] h⟩

/-! ### C8: normalization yields total mass 1 -/

/-- C8: for every PMF with positive total mass, after `normalize` the
total mass is exactly `1` (hence in particular within the `1e-9` relative
tolerance), and the same holds for every PMF produced by `update`
whenever its unnormalized total is positive. -/
theorem normalize_total_eq_one (p : PmfQ) (outs : List (Outcome × ℕ))
    (h : 0 < total p) (hu : 0 < total (unnormalized p outs)) :
    total (normalize p) = 1 ∧
    |total (normalize p) - 1| ≤ 1 / 1000000000 ∧
    total (update p outs) = 1 := by
  have key : ∀ q : PmfQ, 0 < total q → total (normalize q) = 1 := by
    intro q hq
    show (q.ms.map (fun m => m / q.ms.sum)).sum = 1
    rw [sum_map_div]
    exact div_self (ne_of_gt hq)
  refine ⟨key p h, ?_, key _ hu⟩
  rw [key p h]
  norm_num

/-- C8 witness: the triangle-prior weights `[1, 2, 1]` normalize to total
mass exactly 1, and a concrete update also has total mass 1. -/
theorem normalize_total_eq_one_witness :
    0 < total ⟨[0, 1/2, 1], [1, 2, 1]⟩ ∧
    0 < total (unnormalized ⟨[0, 1/2, 1], [1, 2, 1]⟩ [(Outcome.heads, 1)]) ∧
    total (normalize ⟨[0, 1/2, 1], [1, 2, 1]⟩) = 1 ∧
    |total (normalize ⟨[0, 1/2, 1], [1, 2, 1]⟩) - 1| ≤ 1 / 1000000000 ∧
    total (update ⟨[0, 1/2, 1], [1, 2, 1]⟩ [(Outcome.heads, 1)]) = 1 := by
  have h : 0 < total (⟨[0, 1/2, 1], [1, 2, 1]⟩ : PmfQ) := by
    norm_num [total]
  have hu : 0 < total (unnormalized ⟨[0, 1/2, 1], [1, 2, 1]⟩
      [(Outcome.heads, 1)]) := by
    norm_num [unnormalized, applyOutcome, likelihood, total]
  obtain ⟨h1, h2, h3⟩ :=
    normalize_total_eq_one ⟨[0, 1/2, 1], [1, 2, 1]⟩ [(Outcome.heads, 1)] h hu
  exact ⟨h, hu, h1, h2, h3⟩

/-! ### C1: the pointwise posterior formula -/

/-- C1: for every prior PMF and outcome sequence, the Bayesian update
returns the PMF whose mass at each grid point is the prior mass there
multiplied by the product over all outcomes of `likelihood(label, x) ^ count`,
divided by the sum of those products over all grid points. -/
theorem update_pointwise_formula (p : PmfQ) (outs : List (Outcome × ℕ))
    (hlen : p.ms.length = p.xs.length) (i : ℕ) (hi : i < p.ms.length) :
    (update p outs).ms.getD i 0 =
      p.ms.getD i 0 * likeProduct outs (p.xs.getD i 0) /
        (List.zipWith (fun m x => m * likeProduct outs x) p.ms p.xs).sum := by
  have hw := unnormalized_ms p outs hlen
  have hlw : (List.zipWith (fun m x => m * likeProduct outs x) p.ms p.xs).length =
      p.ms.length := by
    simp [List.length_zipWith, hlen]
  have hix : i < p.xs.length := hlen ▸ hi
  have hupdate : (update p outs).ms =
      (List.zipWith (fun m x => m * likeProduct outs x) p.ms p.xs).map
        (fun m =>
          m / (List.zipWith (fun m x => m * likeProduct outs x) p.ms p.xs).sum) := by
    show (unnormalized p outs).ms.map
        (fun m => m / (unnormalized p outs).ms.sum) = _
    rw [hw]
  rw [hupdate]
  rw [List.getD_eq_getElem _ _ (by simp [hlw, hi]),
    List.getD_eq_getElem _ _ hi, List.getD_eq_getElem _ _ hix]
  rw [List.getElem_map, List.getElem_zipWith]

/-- C1 witness: concrete instance; on the grid `[0, 1/2, 1]` with prior
masses `[1/4, 1/2, 1/4]` and data two heads and one tails, the posterior
mass at index 1 follows the stated formula (and evaluates to 1). -/
theorem update_pointwise_formula_witness :
    ((⟨[0, 1/2, 1], [1/4, 1/2, 1/4]⟩ : PmfQ)).ms.length =
      ((⟨[0, 1/2, 1], [1/4, 1/2, 1/4]⟩ : PmfQ)).xs.length ∧
    1 < ((⟨[0, 1/2, 1], [1/4, 1/2, 1/4]⟩ : PmfQ)).ms.length ∧
    (update ⟨[0, 1/2, 1], [1/4, 1/2, 1/4]⟩
        [(Outcome.heads, 2), (Outcome.tails, 1)]).ms.getD 1 0 =
      ((⟨[0, 1/2, 1], [1/4, 1/2, 1/4]⟩ : PmfQ)).ms.getD 1 0 *
          likeProduct [(Outcome.heads, 2), (Outcome.tails, 1)]
            (((⟨[0, 1/2, 1], [1/4, 1/2, 1/4]⟩ : PmfQ)).xs.getD 1 0) /
        (List.zipWith
          (fun m x => m * likeProduct [(Outcome.heads, 2), (Outcome.tails, 1)] x)
          ((⟨[0, 1/2, 1], [1/4, 1/2, 1/4]⟩ : PmfQ)).ms
          ((⟨[0, 1/2, 1], [1/4, 1/2, 1/4]⟩ : PmfQ)).xs).sum ∧
    (update ⟨[0, 1/2, 1], [1/4, 1/2, 1/4]⟩
        [(Outcome.heads, 2), (Outcome.tails, 1)]).ms.getD 1 0 = 1 := by
  refine ⟨rfl, by norm_num, ?_, ?_⟩
  · exact update_pointwise_formula ⟨[0, 1/2, 1], [1/4, 1/2, 1/4]⟩
      [(Outcome.heads, 2), (Outcome.tails, 1)] rfl 1 (by norm_num)
  · norm_num [update, EuroNotebook.normalize, unnormalized, applyOutcome,
      likelihood]

/-! ### C10: symmetry of the triangle prior -/

/-- The weights of the triangle prior, at the natural-number level
(`np.arange` produces integers). -/
def psNat : List ℕ := List.range 50 ++ (List.range 51).map (fun i => 50 - i)

theorem ps_eq_map : ps = psNat.map (fun n : ℕ => (n : ℚ)) := by
  simp only [ps, psNat, ramp_up, ramp_down, List.map_append, List.map_map]
  rfl

theorem psNat_reverse : psNat.reverse = psNat := by decide

theorem ps_reverse : ps.reverse = ps := by
  rw [ps_eq_map, ← List.map_reverse, psNat_reverse]

theorem getD_reverse_symm (l : List ℚ) (hrev : l.reverse = l) (i : ℕ)
    (hi : i < l.length) : l.getD i 0 = l.getD (l.length - 1 - i) 0 := by
  conv_lhs => rw [← hrev]
  have hi' : i < l.reverse.length := by simpa using hi
  have hj : l.length - 1 - i < l.length := by omega
  rw [List.getD_eq_getElem _ _ hi', List.getD_eq_getElem _ _ hj]
  exact List.getElem_reverse hi'

/-- C10: the triangle prior built by appending the ramp `0..49` to the ramp
`50..0` and normalizing has a weight vector of length 101 matching the
101-point grid, and is symmetric about the grid midpoint: the mass at
index `i` equals the mass at index `100 - i`, while the grid value at
index `100 - i` is `1` minus the grid value at index `i` (so the mass at
`x` equals the mass at `1 - x`). -/
theorem triangle_prior_symmetric :
    ps.length = 101 ∧ triangle.ms.length = 101 ∧ xsGrid.length = 101 ∧
    (∀ i, i ≤ 100 → triangle.ms.getD i 0 = triangle.ms.getD (100 - i) 0) ∧
    (∀ i, i ≤ 100 → xsGrid.getD (100 - i) 0 = 1 - xsGrid.getD i 0) := by
  have hps : ps.length = 101 := by
    simp [ps, ramp_up, ramp_down]
  have hms : triangle.ms = ps.map (fun m => m / ps.sum) := rfl
  have hlen : triangle.ms.length = 101 := by
    rw [hms, List.length_map, hps]
  have hxl : xsGrid.length = 101 := by simp [xsGrid]
  have hrev : triangle.ms.reverse = triangle.ms := by
    rw [hms, ← List.map_reverse, ps_reverse]
  refine ⟨hps, hlen, hxl, ?_, ?_⟩
  · intro i hi
    have := getD_reverse_symm triangle.ms hrev i (by rw [hlen]; omega)
    rw [hlen] at this
    simpa using this
  · intro i hi
    have h1 : 100 - i < xsGrid.length := by rw [hxl]; omega
    have h2 : i < xsGrid.length := by rw [hxl]; omega
    rw [List.getD_eq_getElem _ _ h1, List.getD_eq_getElem _ _ h2]
    simp only [xsGrid, List.getElem_map, List.getElem_range]
    have hc : ((100 - i : ℕ) : ℚ) = 100 - (i : ℚ) := by
      push_cast [Nat.cast_sub hi]
      ring
    rw [hc]
    ring

/-! ### Interpolation helpers for the credible interval -/

/-- Componentwise order on the `(y, x)` data points of the inverse-CDF
interpolation. -/
def pairLE (a b : ℚ × ℚ) : Prop := a.1 ≤ b.1 ∧ a.2 ≤ b.2

theorem seg_le (y0 x0 y1 x1 q : ℚ) (hq0 : y0 ≤ q) (hq1 : q ≤ y1)
    (hx : x0 ≤ x1) :
    x0 ≤ x0 + (q - y0) * (x1 - x0) / (y1 - y0) ∧
    x0 + (q - y0) * (x1 - x0) / (y1 - y0) ≤ x1 := by
  rcases eq_or_lt_of_le (hq0.trans hq1) with heq | hlt
  · have hq : q = y0 := le_antisymm (heq ▸ hq1) hq0
    simp [hq]
    linarith
  · have hden : 0 < y1 - y0 := by linarith
    constructor
    · have : 0 ≤ (q - y0) * (x1 - x0) / (y1 - y0) :=
        div_nonneg (mul_nonneg (by linarith) (by linarith)) (by linarith)
      linarith
    · have hnum : (q - y0) * (x1 - x0) ≤ (x1 - x0) * (y1 - y0) := by
        calc (q - y0) * (x1 - x0) ≤ (y1 - y0) * (x1 - x0) :=
              mul_le_mul_of_nonneg_right (by linarith) (by linarith)
          _ = (x1 - x0) * (y1 - y0) := by ring
      have := (div_le_iff₀ hden).mpr hnum
      linarith

theorem seg_mono (y0 x0 y1 x1 q1 q2 : ℚ) (hq0 : y0 ≤ q1) (h12 : q1 ≤ q2)
    (hq2 : q2 ≤ y1) (hx : x0 ≤ x1) :
    x0 + (q1 - y0) * (x1 - x0) / (y1 - y0) ≤
      x0 + (q2 - y0) * (x1 - x0) / (y1 - y0) := by
  rcases eq_or_lt_of_le ((hq0.trans h12).trans hq2) with heq | hlt
  · have h1 : q1 = y0 := le_antisymm (heq ▸ (h12.trans hq2)) hq0
    have h2 : q2 = y0 := le_antisymm (heq ▸ hq2) (hq0.trans h12)
    rw [h1, h2]
  · have hden : 0 < y1 - y0 := by linarith
    have hnum : (q1 - y0) * (x1 - x0) ≤ (q2 - y0) * (x1 - x0) :=
      mul_le_mul_of_nonneg_right (by linarith) (by linarith)
    have hdiv := (div_le_div_iff_of_pos_right hden).mpr hnum
    linarith

theorem chain_head_le_getLastD (x : ℚ) :
    ∀ l : List ℚ, List.Chain' (· ≤ ·) (x :: l) → x ≤ l.getLastD x
  | [], _ => le_refl x
  | y :: l, h => by
    rw [List.getLastD_cons]
    have h1 : x ≤ y := (List.chain'_cons.mp h).1
    exact h1.trans (chain_head_le_getLastD y l (List.chain'_cons.mp h).2)

theorem chainPair_head_le_last (y : ℚ) (x : ℚ) :
    ∀ l : List (ℚ × ℚ), List.Chain' pairLE ((y, x) :: l) →
      x ≤ (l.getLastD (y, x)).2
  | [], _ => le_refl x
  | b :: l, h => by
    rw [List.getLastD_cons]
    have h1 : x ≤ b.2 := (List.chain'_cons.mp h).1.2
    have h2 := chainPair_head_le_last b.1 b.2 l
      (by simpa using (List.chain'_cons.mp h).2)
    simpa using h1.trans h2

theorem interpSegs_bounds :
    ∀ (l : List (ℚ × ℚ)) (y0 x0 q : ℚ),
      List.Chain' pairLE ((y0, x0) :: l) → y0 ≤ q →
      x0 ≤ interpSegs y0 x0 l q ∧
        interpSegs y0 x0 l q ≤ (l.getLastD (y0, x0)).2
  | [], y0, x0, q, _, _ => ⟨le_refl x0, le_refl x0⟩
  | (y1, x1) :: rest, y0, x0, q, hchain, hq0 => by
    have h1 := (List.chain'_cons.mp hchain).1
    have hc := (List.chain'_cons.mp hchain).2
    rw [List.getLastD_cons]
    by_cases hq : q ≤ y1
    · simp only [interpSegs, if_pos hq]
      obtain ⟨hl, hr⟩ := seg_le y0 x0 y1 x1 q hq0 hq h1.2
      exact ⟨hl, hr.trans (chainPair_head_le_last y1 x1 rest hc)⟩
    · simp only [interpSegs, if_neg hq]
      obtain ⟨hl, hr⟩ := interpSegs_bounds rest y1 x1 q hc
        (le_of_lt (lt_of_not_le hq))
      exact ⟨h1.2.trans hl, hr⟩

theorem interpSegs_mono :
    ∀ (l : List (ℚ × ℚ)) (y0 x0 q1 q2 : ℚ),
      List.Chain' pairLE ((y0, x0) :: l) → y0 ≤ q1 → q1 ≤ q2 →
      interpSegs y0 x0 l q1 ≤ interpSegs y0 x0 l q2
  | [], _, _, _, _, _, _, _ => le_refl _
  | (y1, x1) :: rest, y0, x0, q1, q2, hchain, hq0, h12 => by
    have h1 := (List.chain'_cons.mp hchain).1
    have hc := (List.chain'_cons.mp hchain).2
    by_cases h2 : q2 ≤ y1
    · have hq1 : q1 ≤ y1 := h12.trans h2
      simp only [interpSegs, if_pos h2, if_pos hq1]
      exact seg_mono y0 x0 y1 x1 q1 q2 hq0 h12 h2 h1.2
    · by_cases hq1 : q1 ≤ y1
      · simp only [interpSegs, if_pos hq1, if_neg h2]
        have hup := (seg_le y0 x0 y1 x1 q1 hq0 hq1 h1.2).2
        have hlo := (interpSegs_bounds rest y1 x1 q2 hc
          (le_of_lt (lt_of_not_le h2))).1
        exact hup.trans hlo
      · simp only [interpSegs, if_neg hq1, if_neg h2]
        exact interpSegs_mono rest y1 x1 q1 q2 hc
          (le_of_lt (lt_of_not_le hq1)) h12

theorem chainPair_zip :
    ∀ (ytl xtl : List ℚ) (y x : ℚ), ytl.length = xtl.length →
      List.Chain' (· ≤ ·) (y :: ytl) → List.Chain' (· ≤ ·) (x :: xtl) →
      List.Chain' pairLE ((y, x) :: ytl.zip xtl)
  | [], [], y, x, _, _, _ => List.chain'_singleton _
  | [], _ :: _, _, _, h, _, _ => by simp at h
  | _ :: _, [], _, _, h, _, _ => by simp at h
  | y1 :: ytl, x1 :: xtl, y, x, hlen, hy, hx => by
    simp only [List.zip_cons_cons]
    rw [List.chain'_cons]
    refine ⟨⟨(List.chain'_cons.mp hy).1, (List.chain'_cons.mp hx).1⟩, ?_⟩
    exact chainPair_zip ytl xtl y1 x1 (by simpa using hlen)
      (List.chain'_cons.mp hy).2 (List.chain'_cons.mp hx).2

theorem zip_getLastD_snd :
    ∀ (ytl xtl : List ℚ) (y x : ℚ), ytl.length = xtl.length →
      ((ytl.zip xtl).getLastD (y, x)).2 = xtl.getLastD x
  | [], [], _, _, _ => rfl
  | [], _ :: _, _, _, h => by simp at h
  | _ :: _, [], _, _, h => by simp at h
  | y1 :: ytl, x1 :: xtl, y, x, hlen => by
    simp only [List.zip_cons_cons, List.getLastD_cons]
    exact zip_getLastD_snd ytl xtl y1 x1 (by simpa using hlen)

theorem interpInv_bounds (y0 x0 : ℚ) (ytl xtl : List ℚ)
    (hlen : ytl.length = xtl.length)
    (hys : List.Chain' (· ≤ ·) (y0 :: ytl))
    (hxs : List.Chain' (· ≤ ·) (x0 :: xtl)) (q : ℚ) :
    x0 ≤ interpInv (y0 :: ytl) (x0 :: xtl) q ∧
    interpInv (y0 :: ytl) (x0 :: xtl) q ≤ (x0 :: xtl).getLastD 0 := by
  have hxlast : (x0 :: xtl).getLastD 0 = xtl.getLastD x0 := by
    rw [List.getLastD_cons]
  have hhl : x0 ≤ xtl.getLastD x0 := chain_head_le_getLastD x0 xtl hxs
  simp only [interpInv]
  by_cases hlo : q < y0
  · rw [if_pos hlo, hxlast]
    exact ⟨le_refl x0, hhl⟩
  · rw [if_neg hlo]
    by_cases hhi : (y0 :: ytl).getLastD 0 < q
    · rw [if_pos hhi, hxlast]
      exact ⟨hhl, le_refl _⟩
    · rw [if_neg hhi, hxlast]
      have hchain := chainPair_zip ytl xtl y0 x0 hlen hys hxs
      obtain ⟨hl, hr⟩ := interpSegs_bounds (ytl.zip xtl) y0 x0 q hchain
        (le_of_not_lt hlo)
      rw [zip_getLastD_snd ytl xtl y0 x0 hlen] at hr
      exact ⟨hl, hr⟩

theorem interpInv_mono (y0 x0 : ℚ) (ytl xtl : List ℚ)
    (hlen : ytl.length = xtl.length)
    (hys : List.Chain' (· ≤ ·) (y0 :: ytl))
    (hxs : List.Chain' (· ≤ ·) (x0 :: xtl)) (q1 q2 : ℚ) (h12 : q1 ≤ q2) :
    interpInv (y0 :: ytl) (x0 :: xtl) q1 ≤
      interpInv (y0 :: ytl) (x0 :: xtl) q2 := by
  have hb1 := interpInv_bounds y0 x0 ytl xtl hlen hys hxs q1
  have hb2 := interpInv_bounds y0 x0 ytl xtl hlen hys hxs q2
  by_cases hlo : q1 < y0
  · calc interpInv (y0 :: ytl) (x0 :: xtl) q1 = x0 := by
          simp only [interpInv, if_pos hlo]
      _ ≤ _ := hb2.1
  · have hlo2 : ¬ q2 < y0 := fun h => hlo (lt_of_le_of_lt h12 h)
    by_cases hhi : (y0 :: ytl).getLastD 0 < q2
    · calc interpInv (y0 :: ytl) (x0 :: xtl) q1 ≤ (x0 :: xtl).getLastD 0 :=
            hb1.2
        _ = interpInv (y0 :: ytl) (x0 :: xtl) q2 := by
            simp only [interpInv, if_neg hlo2, if_pos hhi]
    · have hhi1 : ¬ (y0 :: ytl).getLastD 0 < q1 :=
        fun h => hhi (lt_of_lt_of_le h h12)
      simp only [interpInv, if_neg hlo, if_neg hlo2, if_neg hhi, if_neg hhi1]
      exact interpSegs_mono (ytl.zip xtl) y0 x0 q1 q2
        (chainPair_zip ytl xtl y0 x0 hlen hys hxs) (le_of_not_lt hlo) h12

/-! ### Cumulative sum helpers -/

theorem cumsumFrom_length : ∀ (ms : List ℚ) (acc : ℚ),
    (cumsumFrom acc ms).length = ms.length
  | [], _ => rfl
  | _ :: rest, acc => by
    simp only [cumsumFrom, List.length_cons]
    rw [cumsumFrom_length rest]

theorem cumsum_length (ms : List ℚ) : (cumsum ms).length = ms.length :=
  cumsumFrom_length ms 0

theorem cumsumFrom_chain : ∀ (ms : List ℚ) (acc : ℚ),
    (∀ m ∈ ms, 0 ≤ m) → List.Chain' (· ≤ ·) (acc :: cumsumFrom acc ms)
  | [], _, _ => List.chain'_singleton _
  | m :: rest, acc, h => by
    simp only [cumsumFrom]
    rw [List.chain'_cons]
    refine ⟨by have := h m (by simp); linarith, ?_⟩
    exact cumsumFrom_chain rest (acc + m) (fun a ha => h a (by simp [ha]))

/-! ### C4: the credible interval -/

/-- C4 counterexample: on the normalized PMF with grid `[0, 1/2, 1]` and
masses `[31/32, 1/64, 1/64]` and `prob = 9/10` (strictly inside `(0,1)`),
both target cumulative probabilities `0.05` and `0.95` fall below the
CDF's first value `31/32`, so both are clamped to the grid minimum: the
returned pair is `(0, 0)` and `low < high` fails. -/
theorem credible_interval_collapse_counterexample :
    total ⟨[0, 1/2, 1], [31/32, 1/64, 1/64]⟩ = 1 ∧
    (0 : ℚ) < 9/10 ∧ (9/10 : ℚ) < 1 ∧
    credible_interval ⟨[0, 1/2, 1], [31/32, 1/64, 1/64]⟩ (9/10) = (0, 0) ∧
    ¬ (credible_interval ⟨[0, 1/2, 1], [31/32, 1/64, 1/64]⟩ (9/10)).1 <
        (credible_interval ⟨[0, 1/2, 1], [31/32, 1/64, 1/64]⟩ (9/10)).2 := by
  have h : credible_interval ⟨[0, 1/2, 1], [31/32, 1/64, 1/64]⟩ (9/10) =
      ((0 : ℚ), (0 : ℚ)) := by
    norm_num [credible_interval, cumsum, cumsumFrom, interpInv, interpSegs]
  refine ⟨by norm_num [total], by norm_num, by norm_num, h, ?_⟩
  rw [h]
  norm_num

/-- C4 amended: for every normalized PMF (non-negative masses on a sorted
grid) and every `prob` in `(0,1)`, `credible_interval` returns exactly the
pair of monotonic-interpolation inverse-CDF values at
`p_lo = (1-prob)/2` and `p_hi = 1-p_lo` over the cumulative sums (with
out-of-range targets clamped to the grid's endpoint values), and the
returned pair satisfies `low ≤ high` — not `low < high`, which fails when
both targets clamp to the same endpoint — with both components within
the grid's range. -/
theorem credible_interval_ordered_in_range (p : PmfQ) (prob : ℚ)
    (hlen : p.ms.length = p.xs.length) (hne : p.xs ≠ [])
    (hxs : List.Chain' (· ≤ ·) p.xs) (hm : ∀ m ∈ p.ms, 0 ≤ m)
    (hnorm : total p = 1) (h0 : 0 < prob) (h1 : prob < 1) :
    credible_interval p prob =
      (interpInv (cumsum p.ms) p.xs ((1 - prob) / 2),
        interpInv (cumsum p.ms) p.xs (1 - (1 - prob) / 2)) ∧
    (credible_interval p prob).1 ≤ (credible_interval p prob).2 ∧
    p.xs.getD 0 0 ≤ (credible_interval p prob).1 ∧
    (credible_interval p prob).1 ≤ p.xs.getLastD 0 ∧
    p.xs.getD 0 0 ≤ (credible_interval p prob).2 ∧
    (credible_interval p prob).2 ≤ p.xs.getLastD 0 := by
  obtain ⟨xs, ms⟩ := p
  match xs, ms, hne, hlen with
  | [], _, hne, _ => exact absurd rfl hne
  | x0 :: xtl, [], _, hlen => simp at hlen
  | x0 :: xtl, m0 :: mtl, _, hlen =>
    simp only at hxs hm ⊢
    have hcons : cumsum (m0 :: mtl) = (0 + m0) :: cumsumFrom (0 + m0) mtl := rfl
    have hlen' : (cumsumFrom (0 + m0) mtl).length = xtl.length := by
      rw [cumsumFrom_length]
      simpa using hlen
    have hys : List.Chain' (· ≤ ·) ((0 + m0) :: cumsumFrom (0 + m0) mtl) :=
      cumsumFrom_chain mtl (0 + m0) (fun a ha => hm a (by simp [ha]))
    have hq12 : (1 - prob) / 2 ≤ 1 - (1 - prob) / 2 := by linarith
    have hb1 := interpInv_bounds (0 + m0) x0 (cumsumFrom (0 + m0) mtl) xtl
      hlen' hys hxs ((1 - prob) / 2)
    have hb2 := interpInv_bounds (0 + m0) x0 (cumsumFrom (0 + m0) mtl) xtl
      hlen' hys hxs (1 - (1 - prob) / 2)
    have hmono := interpInv_mono (0 + m0) x0 (cumsumFrom (0 + m0) mtl) xtl
      hlen' hys hxs ((1 - prob) / 2) (1 - (1 - prob) / 2) hq12
    refine ⟨rfl, ?_, ?_, ?_, ?_, ?_⟩
    · show interpInv (cumsum (m0 :: mtl)) (x0 :: xtl) ((1 - prob) / 2) ≤
        interpInv (cumsum (m0 :: mtl)) (x0 :: xtl) (1 - (1 - prob) / 2)
      rw [hcons]
      exact hmono
    · show (x0 :: xtl).getD 0 0 ≤
        interpInv (cumsum (m0 :: mtl)) (x0 :: xtl) ((1 - prob) / 2)
      rw [hcons]
      exact hb1.1
    · show interpInv (cumsum (m0 :: mtl)) (x0 :: xtl) ((1 - prob) / 2) ≤
        (x0 :: xtl).getLastD 0
      rw [hcons]
      exact hb1.2
    · show (x0 :: xtl).getD 0 0 ≤
        interpInv (cumsum (m0 :: mtl)) (x0 :: xtl) (1 - (1 - prob) / 2)
      rw [hcons]
      exact hb2.1
    · show interpInv (cumsum (m0 :: mtl)) (x0 :: xtl) (1 - (1 - prob) / 2) ≤
        (x0 :: xtl).getLastD 0
      rw [hcons]
      exact hb2.2

/-- C4 witness: a concrete normalized PMF and `prob = 9/10` satisfying all
the hypotheses of `credible_interval_ordered_in_range`. -/
theorem credible_interval_ordered_in_range_witness :
    (⟨[0, 1/2, 1], [1/4, 1/2, 1/4]⟩ : PmfQ).ms.length =
      (⟨[0, 1/2, 1], [1/4, 1/2, 1/4]⟩ : PmfQ).xs.length ∧
    (⟨[0, 1/2, 1], [1/4, 1/2, 1/4]⟩ : PmfQ).xs ≠ [] ∧
    List.Chain' (· ≤ ·) (⟨[0, 1/2, 1], [1/4, 1/2, 1/4]⟩ : PmfQ).xs ∧
    (∀ m ∈ (⟨[0, 1/2, 1], [1/4, 1/2, 1/4]⟩ : PmfQ).ms, 0 ≤ m) ∧
    total ⟨[0, 1/2, 1], [1/4, 1/2, 1/4]⟩ = 1 ∧
    (0 : ℚ) < 9/10 ∧ (9/10 : ℚ) < 1 ∧
    ((credible_interval ⟨[0, 1/2, 1], [1/4, 1/2, 1/4]⟩ (9/10)).1 ≤
      (credible_interval ⟨[0, 1/2, 1], [1/4, 1/2, 1/4]⟩ (9/10)).2) := by
  have hlen : (⟨[0, 1/2, 1], [1/4, 1/2, 1/4]⟩ : PmfQ).ms.length =
      (⟨[0, 1/2, 1], [1/4, 1/2, 1/4]⟩ : PmfQ).xs.length := rfl
  have hne : (⟨[0, 1/2, 1], [1/4, 1/2, 1/4]⟩ : PmfQ).xs ≠ [] := by simp
  have hxs : List.Chain' (· ≤ ·)
      (⟨[0, 1/2, 1], [1/4, 1/2, 1/4]⟩ : PmfQ).xs := by
    simp only [List.chain'_cons, List.chain'_singleton, and_true]
    norm_num
  have hm : ∀ m ∈ (⟨[0, 1/2, 1], [1/4, 1/2, 1/4]⟩ : PmfQ).ms, 0 ≤ m := by
    intro m hmem
    simp only [List.mem_cons, List.not_mem_nil, or_false] at hmem
    rcases hmem with h | h | h <;> rw [h] <;> norm_num
  have hnorm : total ⟨[0, 1/2, 1], [1/4, 1/2, 1/4]⟩ = 1 := by norm_num [total]
  exact ⟨hlen, hne, hxs, hm, hnorm, by norm_num, by norm_num,
    (credible_interval_ordered_in_range ⟨[0, 1/2, 1], [1/4, 1/2, 1/4]⟩ (9/10)
      hlen hne hxs hm hnorm (by norm_num) (by norm_num)).2.1⟩

/-! ### C5: no validation of the interval probability -/

/-- C5 counterexample: `prob = 2` is not strictly between 0 and 1, yet
`credible_interval` does not fail: the code contains no
`InvalidArgumentError` (nor any validation of `prob`); the out-of-range
cumulative targets `-1/2` and `3/2` are clamped by the interpolator's
fill values and the pair `(0, 1)` is returned. -/
theorem credible_interval_no_validation_counterexample :
    ¬ ((0 : ℚ) < 2 ∧ (2 : ℚ) < 1) ∧
    credible_interval ⟨[0, 1/2, 1], [1/4, 1/2, 1/4]⟩ 2 = (0, 1) := by
  constructor
  · norm_num
  · norm_num [credible_interval, cumsum, cumsumFrom, interpInv, interpSegs]

/-- C5 amended: `credible_interval` performs no validation of `prob` and
never fails: for every `prob` whatsoever (inside `(0,1)` or not), it
returns a pair of interpolated values, both lying within the grid's
range (out-of-range cumulative targets are clamped to the grid's
endpoint values). -/
theorem credible_interval_total_no_error (p : PmfQ) (prob : ℚ)
    (hlen : p.ms.length = p.xs.length) (hne : p.xs ≠ [])
    (hxs : List.Chain' (· ≤ ·) p.xs) (hm : ∀ m ∈ p.ms, 0 ≤ m) :
    p.xs.getD 0 0 ≤ (credible_interval p prob).1 ∧
    (credible_interval p prob).1 ≤ p.xs.getLastD 0 ∧
    p.xs.getD 0 0 ≤ (credible_interval p prob).2 ∧
    (credible_interval p prob).2 ≤ p.xs.getLastD 0 := by
  obtain ⟨xs, ms⟩ := p
  match xs, ms, hne, hlen with
  | [], _, hne, _ => exact absurd rfl hne
  | x0 :: xtl, [], _, hlen => simp at hlen
  | x0 :: xtl, m0 :: mtl, _, hlen =>
    simp only at hxs hm ⊢
    have hcons : cumsum (m0 :: mtl) = (0 + m0) :: cumsumFrom (0 + m0) mtl := rfl
    have hlen' : (cumsumFrom (0 + m0) mtl).length = xtl.length := by
      rw [cumsumFrom_length]
      simpa using hlen
    have hys : List.Chain' (· ≤ ·) ((0 + m0) :: cumsumFrom (0 + m0) mtl) :=
      cumsumFrom_chain mtl (0 + m0) (fun a ha => hm a (by simp [ha]))
    have hb1 := interpInv_bounds (0 + m0) x0 (cumsumFrom (0 + m0) mtl) xtl
      hlen' hys hxs ((1 - prob) / 2)
    have hb2 := interpInv_bounds (0 + m0) x0 (cumsumFrom (0 + m0) mtl) xtl
      hlen' hys hxs (1 - (1 - prob) / 2)
    refine ⟨?_, ?_, ?_, ?_⟩ <;>
      · show _
        rw [show cumsum (m0 :: mtl) = (0 + m0) :: cumsumFrom (0 + m0) mtl
          from rfl] at *
        first
          | exact hb1.1 | exact hb1.2 | exact hb2.1 | exact hb2.2

/-- C5 witness: the amended statement applied at the out-of-range
probability `3/2`, where `credible_interval` still returns an in-grid
pair instead of failing. -/
theorem credible_interval_total_no_error_witness :
    (⟨[0, 1/2, 1], [1/2, 1/4, 1/4]⟩ : PmfQ).ms.length =
      (⟨[0, 1/2, 1], [1/2, 1/4, 1/4]⟩ : PmfQ).xs.length ∧
    (⟨[0, 1/2, 1], [1/2, 1/4, 1/4]⟩ : PmfQ).xs ≠ [] ∧
    List.Chain' (· ≤ ·) (⟨[0, 1/2, 1], [1/2, 1/4, 1/4]⟩ : PmfQ).xs ∧
    (∀ m ∈ (⟨[0, 1/2, 1], [1/2, 1/4, 1/4]⟩ : PmfQ).ms, 0 ≤ m) ∧
    ((⟨[0, 1/2, 1], [1/2, 1/4, 1/4]⟩ : PmfQ).xs.getD 0 0 ≤
        (credible_interval ⟨[0, 1/2, 1], [1/2, 1/4, 1/4]⟩ (3/2)).1 ∧
      (credible_interval ⟨[0, 1/2, 1], [1/2, 1/4, 1/4]⟩ (3/2)).1 ≤
        (⟨[0, 1/2, 1], [1/2, 1/4, 1/4]⟩ : PmfQ).xs.getLastD 0 ∧
      (⟨[0, 1/2, 1], [1/2, 1/4, 1/4]⟩ : PmfQ).xs.getD 0 0 ≤
        (credible_interval ⟨[0, 1/2, 1], [1/2, 1/4, 1/4]⟩ (3/2)).2 ∧
      (credible_interval ⟨[0, 1/2, 1], [1/2, 1/4, 1/4]⟩ (3/2)).2 ≤
        (⟨[0, 1/2, 1], [1/2, 1/4, 1/4]⟩ : PmfQ).xs.getLastD 0) := by
  have hlen : (⟨[0, 1/2, 1], [1/2, 1/4, 1/4]⟩ : PmfQ).ms.length =
      (⟨[0, 1/2, 1], [1/2, 1/4, 1/4]⟩ : PmfQ).xs.length := rfl
  have hne : (⟨[0, 1/2, 1], [1/2, 1/4, 1/4]⟩ : PmfQ).xs ≠ [] := by simp
  have hxs : List.Chain' (· ≤ ·)
      (⟨[0, 1/2, 1], [1/2, 1/4, 1/4]⟩ : PmfQ).xs := by
    simp only [List.chain'_cons, List.chain'_singleton, and_true]
    norm_num
  have hm : ∀ m ∈ (⟨[0, 1/2, 1], [1/2, 1/4, 1/4]⟩ : PmfQ).ms, 0 ≤ m := by
    intro m hmem
    simp only [List.mem_cons, List.not_mem_nil, or_false] at hmem
    rcases hmem with h | h | h <;> rw [h] <;> norm_num
  exact ⟨hlen, hne, hxs, hm,
    credible_interval_total_no_error ⟨[0, 1/2, 1], [1/2, 1/4, 1/4]⟩ (3/2)
      hlen hne hxs hm⟩

/-! ### C6: the MAP estimate (`idxmax`) -/

theorem getD_default_irrel {α : Type} [Inhabited α] (l : List α) (n : ℕ)
    (d1 d2 : α) (h : n < l.length) : l.getD n d1 = l.getD n d2 := by
  rw [List.getD_eq_getElem _ _ h, List.getD_eq_getElem _ _ h]

theorem zip_getD (l1 l2 : List ℚ) (n : ℕ) (h : n < (l1.zip l2).length)
    (d1 d2 : ℚ) :
    (l1.zip l2).getD n (d1, d2) = (l1.getD n d1, l2.getD n d2) := by
  have h1 : n < l1.length := by
    simp only [List.length_zip] at h
    omega
  have h2 : n < l2.length := by
    simp only [List.length_zip] at h
    omega
  rw [List.getD_eq_getElem _ _ h, List.getD_eq_getElem _ _ h1,
    List.getD_eq_getElem _ _ h2]
  exact List.getElem_zip

theorem idxmaxPair_spec :
    ∀ (l : List (ℚ × ℚ)) (b : ℚ × ℚ),
      ∃ k, k ≤ l.length ∧ idxmaxPair b l = (b :: l).getD k b ∧
        (∀ j, j ≤ l.length → ((b :: l).getD j b).2 ≤ ((b :: l).getD k b).2) ∧
        (∀ j, j < k → ((b :: l).getD j b).2 < ((b :: l).getD k b).2)
  | [], b => by
    refine ⟨0, Nat.le_refl 0, rfl, ?_, ?_⟩
    · intro j hj
      have hj0 : j = 0 := by simpa using hj
      subst hj0
      exact le_refl _
    · intro j hj
      exact absurd hj (Nat.not_lt_zero j)
  | p :: rest, b => by
    have hstep : idxmaxPair b (p :: rest) =
        idxmaxPair (if b.2 < p.2 then p else b) rest := rfl
    by_cases hbp : b.2 < p.2
    · obtain ⟨k', hk'le, hval, hmax, hstrict⟩ := idxmaxPair_spec rest p
      have hk'lt : k' < (p :: rest).length := by
        simp only [List.length_cons]
        omega
      have hvv : (b :: p :: rest).getD (k' + 1) b = (p :: rest).getD k' p := by
        rw [List.getD_cons_succ]
        exact getD_default_irrel (p :: rest) k' b p hk'lt
      have hres : p.2 ≤ ((b :: p :: rest).getD (k' + 1) b).2 := by
        rw [hvv]
        simpa using hmax 0 (Nat.zero_le _)
      refine ⟨k' + 1, ?_, ?_, ?_, ?_⟩
      · simp only [List.length_cons]
        omega
      · rw [hstep, if_pos hbp, hval, hvv]
      · intro j hj
        simp only [List.length_cons] at hj
        match j, hj with
        | 0, _ =>
          simpa using le_of_lt (lt_of_lt_of_le hbp hres)
        | j'' + 1, hj =>
          rw [List.getD_cons_succ, hvv,
            getD_default_irrel (p :: rest) j'' b p
              (by simp only [List.length_cons]; omega)]
          exact hmax j'' (by omega)
      · intro j hj
        match j, hj with
        | 0, _ => simpa using lt_of_lt_of_le hbp hres
        | j'' + 1, hj =>
          have hj'' : j'' < k' := by omega
          rw [List.getD_cons_succ, hvv,
            getD_default_irrel (p :: rest) j'' b p
              (by simp only [List.length_cons]; omega)]
          exact hstrict j'' hj''
    · obtain ⟨k', hk'le, hval, hmax, hstrict⟩ := idxmaxPair_spec rest b
      have hp2 : p.2 ≤ b.2 := le_of_not_lt hbp
      match k', hk'le, hval, hmax, hstrict with
      | 0, _, hval, hmax, _ =>
        refine ⟨0, Nat.zero_le _, ?_, ?_, ?_⟩
        · rw [hstep, if_neg hbp, hval]
          simp
        · intro j hj
          simp only [List.length_cons] at hj
          simp only [List.getD_cons_zero]
          match j, hj with
          | 0, _ => exact le_refl _
          | 1, _ => simpa using hp2
          | j'' + 2, hj =>
            rw [List.getD_cons_succ, List.getD_cons_succ]
            have hm := hmax (j'' + 1) (by omega)
            rw [List.getD_cons_succ] at hm
            simpa using hm
        · intro j hj
          exact absurd hj (Nat.not_lt_zero j)
      | k'' + 1, hk'le, hval, hmax, hstrict =>
        have hkrange : k'' < rest.length := by omega
        have hres : (b :: p :: rest).getD (k'' + 2) b =
            (b :: rest).getD (k'' + 1) b := by
          rw [List.getD_cons_succ, List.getD_cons_succ, List.getD_cons_succ]
        refine ⟨k'' + 2, ?_, ?_, ?_, ?_⟩
        · simp only [List.length_cons]
          omega
        · rw [hstep, if_neg hbp, hval, hres]
        · intro j hj
          simp only [List.length_cons] at hj
          match j, hj with
          | 0, _ =>
            rw [List.getD_cons_zero, hres]
            simpa using hmax 0 (Nat.zero_le _)
          | 1, _ =>
            rw [List.getD_cons_succ, List.getD_cons_zero, hres]
            have hb := hmax 0 (Nat.zero_le _)
            simp only [List.getD_cons_zero] at hb
            exact hp2.trans hb
          | j'' + 2, hj =>
            rw [List.getD_cons_succ, List.getD_cons_succ, hres,
              List.getD_cons_succ]
            have hm := hmax (j'' + 1) (by omega)
            rw [List.getD_cons_succ] at hm
            exact hm
        · intro j hj
          match j, hj with
          | 0, _ =>
            rw [List.getD_cons_zero, hres]
            simpa using hstrict 0 (by omega)
          | 1, _ =>
            rw [List.getD_cons_succ, List.getD_cons_zero, hres]
            have hb := hstrict 0 (by omega)
            simp only [List.getD_cons_zero] at hb
            exact lt_of_le_of_lt hp2 hb
          | j'' + 2, hj =>
            rw [List.getD_cons_succ, List.getD_cons_succ, hres,
              List.getD_cons_succ]
            have hs := hstrict (j'' + 1) (by omega)
            rw [List.getD_cons_succ] at hs
            exact hs

theorem idxmaxPair_scale (c : ℚ) (hc : 0 < c) :
    ∀ (l : List (ℚ × ℚ)) (b : ℚ × ℚ),
      idxmaxPair (b.1, c * b.2) (l.map (fun pr => (pr.1, c * pr.2))) =
        ((idxmaxPair b l).1, c * (idxmaxPair b l).2)
  | [], b => rfl
  | p :: rest, b => by
    have hcond : ((b.1, c * b.2).2 < (p.1, c * p.2).2) ↔ (b.2 < p.2) := by
      simpa using mul_lt_mul_left hc
    simp only [List.map_cons, idxmaxPair]
    by_cases hbp : b.2 < p.2
    · rw [if_pos (hcond.mpr hbp), if_pos hbp]
      exact idxmaxPair_scale c hc rest p
    · rw [if_neg (fun h => hbp (hcond.mp h)), if_neg hbp]
      exact idxmaxPair_scale c hc rest b

/-- C6: for every non-empty PMF (normalized or not), `map_estimate`
(the embedding of `Series.idxmax`) returns the grid value at the first
index attaining the maximal mass: the returned value is a grid value
whose mass is maximal, every earlier index has strictly smaller mass,
and the estimate is invariant under scaling all masses by a positive
constant (so an unnormalized all-equal-weight PMF still yields a valid
grid value). -/
theorem map_estimate_first_argmax (p : PmfQ)
    (hlen : p.ms.length = p.xs.length) (hne : p.xs ≠ []) :
    ∃ k, k < p.xs.length ∧ map_estimate p = p.xs.getD k 0 ∧
      (∀ j, j < p.ms.length → p.ms.getD j 0 ≤ p.ms.getD k 0) ∧
      (∀ j, j < k → p.ms.getD j 0 < p.ms.getD k 0) ∧
      ∀ c : ℚ, 0 < c →
        map_estimate ⟨p.xs, p.ms.map (fun m => c * m)⟩ = map_estimate p := by
  obtain ⟨xs, ms⟩ := p
  match xs, ms, hne, hlen with
  | [], _, hne, _ => exact absurd rfl hne
  | x0 :: xtl, [], _, hlen => simp at hlen
  | x0 :: xtl, m0 :: mtl, _, hlen =>
    simp only at hlen ⊢
    have hlen' : xtl.length = mtl.length := by simpa using hlen.symm
    have hzlen : (xtl.zip mtl).length = xtl.length := by
      simp [List.length_zip, hlen']
    have hz : (x0 :: xtl).zip (m0 :: mtl) = (x0, m0) :: xtl.zip mtl :=
      List.zip_cons_cons
    obtain ⟨k, hkle, hval, hmax, hstrict⟩ :=
      idxmaxPair_spec (xtl.zip mtl) (x0, m0)
    have hkz : k < ((x0, m0) :: xtl.zip mtl).length := by
      simp only [List.length_cons]
      omega
    have hme : map_estimate ⟨x0 :: xtl, m0 :: mtl⟩ =
        (idxmaxPair (x0, m0) (xtl.zip mtl)).1 := by
      simp only [map_estimate, hz]
    have hgetD : ∀ j, j < ((x0, m0) :: xtl.zip mtl).length →
        ((x0, m0) :: xtl.zip mtl).getD j (x0, m0) =
          ((x0 :: xtl).getD j 0, (m0 :: mtl).getD j 0) := by
      intro j hj
      have : ((x0 :: xtl).zip (m0 :: mtl)).getD j (x0, m0) =
          ((x0 :: xtl).getD j x0, (m0 :: mtl).getD j m0) := by
        apply zip_getD
        rw [hz]
        exact hj
      rw [hz] at this
      rw [this]
      have hj1 : j < (x0 :: xtl).length := by
        simp only [List.length_cons]
        simp only [List.length_cons, hzlen] at hj
        omega
      have hj2 : j < (m0 :: mtl).length := by
        simp only [List.length_cons]
        simp only [List.length_cons, hzlen, hlen'] at hj
        omega
      rw [getD_default_irrel _ j x0 0 hj1, getD_default_irrel _ j m0 0 hj2]
    refine ⟨k, ?_, ?_, ?_, ?_, ?_⟩
    · simp only [List.length_cons]
      omega
    · rw [hme, hval, hgetD k hkz]
    · intro j hj
      have hj' : j < ((x0, m0) :: xtl.zip mtl).length := by
        simp only [List.length_cons, hzlen, hlen']
        simpa using hj
      have := hmax j (by simp only [List.length_cons, hzlen, hlen'] at hj' ⊢; omega)
      rw [hgetD j hj', hgetD k hkz] at this
      exact this
    · intro j hj
      have hj' : j < ((x0, m0) :: xtl.zip mtl).length := by
        simp only [List.length_cons]
        omega
      have := hstrict j hj
      rw [hgetD j hj', hgetD k hkz] at this
      exact this
    · intro c hc
      have hmapz : (x0 :: xtl).zip ((m0 :: mtl).map (fun m => c * m)) =
          ((x0 :: xtl).zip (m0 :: mtl)).map (fun pr => (pr.1, c * pr.2)) := by
        rw [List.zip_map_right]
        apply List.map_congr_left
        intro a _
        rfl
      have hz2 : (x0 :: xtl).zip ((m0 :: mtl).map (fun m => c * m)) =
          (x0, c * m0) :: (xtl.zip mtl).map (fun pr => (pr.1, c * pr.2)) := by
        rw [hmapz, hz, List.map_cons]
      have hl : map_estimate ⟨x0 :: xtl, (m0 :: mtl).map (fun m => c * m)⟩ =
          (idxmaxPair (x0, c * m0)
            ((xtl.zip mtl).map (fun pr => (pr.1, c * pr.2)))).1 := by
        simp only [map_estimate, hz2]
      have hsc : idxmaxPair (x0, c * m0)
            ((xtl.zip mtl).map (fun pr => (pr.1, c * pr.2))) =
          ((idxmaxPair (x0, m0) (xtl.zip mtl)).1,
            c * (idxmaxPair (x0, m0) (xtl.zip mtl)).2) :=
        idxmaxPair_scale c hc (xtl.zip mtl) (x0, m0)
      rw [hl, hsc, hme]

/-- C6 witness: on the unnormalized all-equal-weight PMF with masses
`[2, 2, 2]` the estimate is the first grid value, and the argmax
specification holds at a concrete instance. -/
theorem map_estimate_first_argmax_witness :
    (⟨[0, 1/2, 1], [2, 2, 2]⟩ : PmfQ).ms.length =
      (⟨[0, 1/2, 1], [2, 2, 2]⟩ : PmfQ).xs.length ∧
    (⟨[0, 1/2, 1], [2, 2, 2]⟩ : PmfQ).xs ≠ [] ∧
    (∃ k, k < (⟨[0, 1/2, 1], [2, 2, 2]⟩ : PmfQ).xs.length ∧
      map_estimate ⟨[0, 1/2, 1], [2, 2, 2]⟩ =
        (⟨[0, 1/2, 1], [2, 2, 2]⟩ : PmfQ).xs.getD k 0 ∧
      (∀ j, j < (⟨[0, 1/2, 1], [2, 2, 2]⟩ : PmfQ).ms.length →
        (⟨[0, 1/2, 1], [2, 2, 2]⟩ : PmfQ).ms.getD j 0 ≤
          (⟨[0, 1/2, 1], [2, 2, 2]⟩ : PmfQ).ms.getD k 0) ∧
      (∀ j, j < k →
        (⟨[0, 1/2, 1], [2, 2, 2]⟩ : PmfQ).ms.getD j 0 <
          (⟨[0, 1/2, 1], [2, 2, 2]⟩ : PmfQ).ms.getD k 0) ∧
      ∀ c : ℚ, 0 < c →
        map_estimate ⟨(⟨[0, 1/2, 1], [2, 2, 2]⟩ : PmfQ).xs,
            (⟨[0, 1/2, 1], [2, 2, 2]⟩ : PmfQ).ms.map (fun m => c * m)⟩ =
          map_estimate ⟨[0, 1/2, 1], [2, 2, 2]⟩) ∧
    map_estimate ⟨[0, 1/2, 1], [2, 2, 2]⟩ = 0 := by
  refine ⟨rfl, by simp, ?_, ?_⟩
  · exact map_estimate_first_argmax ⟨[0, 1/2, 1], [2, 2, 2]⟩ rfl (by simp)
  · norm_num [map_estimate, idxmaxPair]

/-! ### C3: outcome order does not matter; incremental equals batched -/

theorem applyOutcome_comm (xs ms : List ℚ) (a b : Outcome × ℕ) :
    applyOutcome xs (applyOutcome xs ms a) b =
      applyOutcome xs (applyOutcome xs ms b) a := by
  unfold applyOutcome
  rw [zipWith_zipWith_right, zipWith_zipWith_right]
  apply zipWith_congr_fun
  intro m x
  ring

theorem update_perm (p : PmfQ) (o1 o2 : List (Outcome × ℕ))
    (hperm : o1.Perm o2) : update p o1 = update p o2 := by
  have h : (unnormalized p o1).ms = (unnormalized p o2).ms :=
    hperm.foldl_eq' (fun x _ y _ z => applyOutcome_comm p.xs z x y) p.ms
  show (⟨p.xs, (unnormalized p o1).ms.map
      (fun m => m / (unnormalized p o1).ms.sum)⟩ : PmfQ) =
    ⟨p.xs, (unnormalized p o2).ms.map
      (fun m => m / (unnormalized p o2).ms.sum)⟩
  rw [h]

theorem applyOutcome_map_div (xs ms : List ℚ) (s : ℚ) (o : Outcome × ℕ) :
    applyOutcome xs (ms.map (fun m => m / s)) o =
      (applyOutcome xs ms o).map (fun m => m / s) := by
  unfold applyOutcome
  rw [List.zipWith_map_left, List.map_zipWith]
  apply zipWith_congr_fun
  intro m x
  ring

theorem foldl_applyOutcome_map_div (xs : List ℚ) (s : ℚ) :
    ∀ (outs : List (Outcome × ℕ)) (ms : List ℚ),
      outs.foldl (applyOutcome xs) (ms.map (fun m => m / s)) =
        (outs.foldl (applyOutcome xs) ms).map (fun m => m / s)
  | [], ms => rfl
  | o :: outs, ms => by
    simp only [List.foldl_cons]
    rw [applyOutcome_map_div]
    exact foldl_applyOutcome_map_div xs s outs (applyOutcome xs ms o)

theorem normalize_map_div (xs w : List ℚ) (s : ℚ) (hs : s ≠ 0) :
    normalize ⟨xs, w.map (fun m => m / s)⟩ = normalize ⟨xs, w⟩ := by
  show (⟨xs, (w.map (fun m => m / s)).map
      (fun m => m / (w.map (fun m => m / s)).sum)⟩ : PmfQ) =
    ⟨xs, w.map (fun m => m / w.sum)⟩
  rw [sum_map_div, List.map_map]
  congr 1
  apply List.map_congr_left
  intro a _
  show a / s / (w.sum / s) = a / w.sum
  rcases eq_or_ne w.sum 0 with h | h
  · simp [h]
  · field_simp

theorem likelihood_nonneg (o : Outcome) (x : ℚ) (h0 : 0 ≤ x) (h1 : x ≤ 1) :
    0 ≤ likelihood o x := by
  cases o <;> simp only [likelihood] <;> linarith

theorem applyOutcome_nonneg (o : Outcome × ℕ) :
    ∀ (ms xs : List ℚ), (∀ m ∈ ms, 0 ≤ m) → (∀ x ∈ xs, 0 ≤ x ∧ x ≤ 1) →
      ∀ y ∈ applyOutcome xs ms o, 0 ≤ y
  | [], _, _, _ => by simp [applyOutcome]
  | _ :: _, [], _, _ => by simp [applyOutcome]
  | m :: ms, x :: xs, hm, hx => by
    intro y hy
    simp only [applyOutcome, List.zipWith] at hy
    rcases List.mem_cons.mp hy with h1 | h2
    · rw [h1]
      exact mul_nonneg (hm m (by simp))
        (pow_nonneg
          (likelihood_nonneg o.1 x (hx x (by simp)).1 (hx x (by simp)).2) o.2)
    · exact applyOutcome_nonneg o ms xs (fun a ha => hm a (by simp [ha]))
        (fun a ha => hx a (by simp [ha])) y h2

theorem zipWith_mul_all_zero (g : ℚ → ℚ) :
    ∀ (ms xs : List ℚ), (∀ m ∈ ms, m = 0) →
      ∀ y ∈ List.zipWith (fun m x => m * g x) ms xs, y = 0
  | [], _, _ => by simp
  | _ :: _, [], _ => by simp
  | m :: ms, x :: xs, h => by
    intro y hy
    rcases List.mem_cons.mp hy with h1 | h2
    · rw [h1, h m (by simp)]
      simp
    · exact zipWith_mul_all_zero g ms xs (fun a ha => h a (by simp [ha])) y h2

theorem foldl_applyOutcome_all_zero (xs : List ℚ) :
    ∀ (outs : List (Outcome × ℕ)) (ms : List ℚ), (∀ m ∈ ms, m = 0) →
      ∀ y ∈ outs.foldl (applyOutcome xs) ms, y = 0
  | [], _, h => h
  | o :: outs, ms, h => by
    simp only [List.foldl_cons]
    exact foldl_applyOutcome_all_zero xs outs (applyOutcome xs ms o)
      (zipWith_mul_all_zero _ ms xs h)

theorem update_incremental (p : PmfQ) (o : Outcome × ℕ)
    (os : List (Outcome × ℕ)) (hm : ∀ m ∈ p.ms, 0 ≤ m)
    (hx : ∀ x ∈ p.xs, 0 ≤ x ∧ x ≤ 1) :
    update (update p [o]) os = update p (o :: os) := by
  have hu1nn : ∀ y ∈ applyOutcome p.xs p.ms o, 0 ≤ y :=
    applyOutcome_nonneg o p.ms p.xs hm hx
  have hw : unnormalized (update p [o]) os =
      ⟨p.xs, (os.foldl (applyOutcome p.xs) (applyOutcome p.xs p.ms o)).map
        (fun m => m / (applyOutcome p.xs p.ms o).sum)⟩ := by
    show (⟨p.xs, os.foldl (applyOutcome p.xs)
        ((applyOutcome p.xs p.ms o).map
          (fun m => m / (applyOutcome p.xs p.ms o).sum))⟩ : PmfQ) = _
    rw [foldl_applyOutcome_map_div]
  have hrhs : unnormalized p (o :: os) =
      ⟨p.xs, os.foldl (applyOutcome p.xs) (applyOutcome p.xs p.ms o)⟩ := rfl
  show normalize (unnormalized (update p [o]) os) =
    normalize (unnormalized p (o :: os))
  rw [hw, hrhs]
  rcases eq_or_ne (applyOutcome p.xs p.ms o).sum 0 with hs | hs
  · have hz1 : ∀ m ∈ applyOutcome p.xs p.ms o, m = 0 :=
      sum_eq_zero_of_nonneg _ hu1nn hs
    have hzw : ∀ m ∈ os.foldl (applyOutcome p.xs) (applyOutcome p.xs p.ms o),
        m = 0 :=
      foldl_applyOutcome_all_zero p.xs os _ hz1
    have hmapw : (os.foldl (applyOutcome p.xs)
          (applyOutcome p.xs p.ms o)).map
        (fun m => m / (applyOutcome p.xs p.ms o).sum) =
        os.foldl (applyOutcome p.xs) (applyOutcome p.xs p.ms o) := by
      have hid : (os.foldl (applyOutcome p.xs)
            (applyOutcome p.xs p.ms o)).map
          (fun m => m / (applyOutcome p.xs p.ms o).sum) =
          (os.foldl (applyOutcome p.xs) (applyOutcome p.xs p.ms o)).map id := by
        apply List.map_congr_left
        intro a ha
        rw [hzw a ha]
        simp
      rw [hid, List.map_id]
    rw [hmapw]
  · exact normalize_map_div p.xs _ _ hs

theorem update_single_nonneg (p : PmfQ) (o : Outcome × ℕ)
    (hm : ∀ m ∈ p.ms, 0 ≤ m) (hx : ∀ x ∈ p.xs, 0 ≤ x ∧ x ≤ 1) :
    ∀ m ∈ (update p [o]).ms, 0 ≤ m := by
  intro m hmem
  have hu1nn : ∀ y ∈ applyOutcome p.xs p.ms o, 0 ≤ y :=
    applyOutcome_nonneg o p.ms p.xs hm hx
  obtain ⟨a, ha, heq⟩ := List.mem_map.mp hmem
  rw [← heq]
  exact div_nonneg (hu1nn a ha) (List.sum_nonneg hu1nn)

theorem update_incremental_foldl :
    ∀ (outs : List (Outcome × ℕ)) (p : PmfQ), (∀ m ∈ p.ms, 0 ≤ m) →
      (∀ x ∈ p.xs, 0 ≤ x ∧ x ≤ 1) → outs ≠ [] →
      outs.foldl (fun q o => update q [o]) p = update p outs
  | [], _, _, _, hne => absurd rfl hne
  | o :: outs, p, hm, hx, _ => by
    simp only [List.foldl_cons]
    match outs with
    | [] => rfl
    | o2 :: outs2 =>
      rw [update_incremental_foldl (o2 :: outs2) (update p [o])
        (update_single_nonneg p o hm hx) hx (by simp)]
      exact update_incremental p o (o2 :: outs2) hm hx

/-- C3: `update` is invariant under permutation of the outcome sequence
(likelihood multiplication commutes), and applying updates incrementally,
one outcome at a time, yields the same posterior as one batched update
(for priors with non-negative masses over a grid inside `[0,1]`). -/
theorem update_perm_and_incremental (p : PmfQ)
    (o1 o2 outs : List (Outcome × ℕ)) (hperm : o1.Perm o2)
    (hm : ∀ m ∈ p.ms, 0 ≤ m) (hx : ∀ x ∈ p.xs, 0 ≤ x ∧ x ≤ 1)
    (hne : outs ≠ []) :
    update p o1 = update p o2 ∧
    outs.foldl (fun q o => update q [o]) p = update p outs :=
  ⟨update_perm p o1 o2 hperm,
    update_incremental_foldl outs p hm hx hne⟩

/-- C3 witness: with the uniform 3-point prior, updating with
`[(heads,1),(tails,1)]` equals updating with `[(tails,1),(heads,1)]`, and
two single-outcome updates equal the batched two-outcome update. -/
theorem update_perm_and_incremental_witness :
    ([(Outcome.heads, 1), (Outcome.tails, 1)] : List (Outcome × ℕ)).Perm
      [(Outcome.tails, 1), (Outcome.heads, 1)] ∧
    (∀ m ∈ (⟨[0, 1/2, 1], [1/3, 1/3, 1/3]⟩ : PmfQ).ms, 0 ≤ m) ∧
    (∀ x ∈ (⟨[0, 1/2, 1], [1/3, 1/3, 1/3]⟩ : PmfQ).xs, 0 ≤ x ∧ x ≤ 1) ∧
    ([(Outcome.heads, 1), (Outcome.tails, 1)] : List (Outcome × ℕ)) ≠ [] ∧
    (update ⟨[0, 1/2, 1], [1/3, 1/3, 1/3]⟩
        [(Outcome.heads, 1), (Outcome.tails, 1)] =
      update ⟨[0, 1/2, 1], [1/3, 1/3, 1/3]⟩
        [(Outcome.tails, 1), (Outcome.heads, 1)]) ∧
    ([(Outcome.heads, 1), (Outcome.tails, 1)] : List (Outcome × ℕ)).foldl
        (fun q o => update q [o]) ⟨[0, 1/2, 1], [1/3, 1/3, 1/3]⟩ =
      update ⟨[0, 1/2, 1], [1/3, 1/3, 1/3]⟩
        [(Outcome.heads, 1), (Outcome.tails, 1)] := by
  have hperm : ([(Outcome.heads, 1), (Outcome.tails, 1)] :
      List (Outcome × ℕ)).Perm [(Outcome.tails, 1), (Outcome.heads, 1)] :=
    List.Perm.swap _ _ _
  have hm : ∀ m ∈ (⟨[0, 1/2, 1], [1/3, 1/3, 1/3]⟩ : PmfQ).ms, 0 ≤ m := by
    intro m hmem
    simp only [List.mem_cons, List.not_mem_nil, or_false] at hmem
    rcases hmem with h | h | h <;> rw [h] <;> norm_num
  have hx : ∀ x ∈ (⟨[0, 1/2, 1], [1/3, 1/3, 1/3]⟩ : PmfQ).xs,
      0 ≤ x ∧ x ≤ 1 := by
    intro x hmem
    simp only [List.mem_cons, List.not_mem_nil, or_false] at hmem
    rcases hmem with h | h | h <;> rw [h] <;> norm_num
  have hne : ([(Outcome.heads, 1), (Outcome.tails, 1)] :
      List (Outcome × ℕ)) ≠ [] := by simp
  obtain ⟨h1, h2⟩ := update_perm_and_incremental
    ⟨[0, 1/2, 1], [1/3, 1/3, 1/3]⟩
    [(Outcome.heads, 1), (Outcome.tails, 1)]
    [(Outcome.tails, 1), (Outcome.heads, 1)]
    [(Outcome.heads, 1), (Outcome.tails, 1)] hperm hm hx hne
  exact ⟨hperm, hm, hx, hne, h1, h2⟩

end EuroNotebook
